import Mathlib

/-!
Shallow embedding of `src/util-reference-config.c` (Suricata reference.config
loader).  Lines of the config file are modelled as `List Char`; the hash table
`DetectEngineCtx->reference_conf_ht` is modelled as a list of entries (the hash
table implementation itself lives in `util-hash.c`, which is not part of the
sources; its operations are modelled from the spec where noted).  The PCRE
regex `SC_RCONF_REGEX` is embedded as a literal regex AST interpreted by a
backtracking matcher with PCRE leftmost-greedy semantics.
-/

set_option maxRecDepth 10000

namespace SCRConf

/-- C `isspace` in the C locale (also PCRE `\s`): space, TAB, LF, VT, FF, CR. -/
def isWS (c : Char) : Bool :=
  c == ' ' || c == '\t' || c == '\n' || c == '\x0b' || c == '\x0c' || c == '\r'

/-- PCRE class `[a-zA-Z]`. -/
def isAlphaAscii (c : Char) : Bool :=
  ('a' ≤ c && c ≤ 'z') || ('A' ≤ c && c ≤ 'Z')

/-- PCRE class `[a-zA-Z0-9-_]` (the `-` after `0-9` is a literal hyphen). -/
def isNameChar (c : Char) : Bool :=
  isAlphaAscii c || ('0' ≤ c && c ≤ '9') || c == '-' || c == '_'

/-- PCRE `.` (without DOTALL): any character except LF. -/
def isDotChar (c : Char) : Bool :=
  c != '\n'

/-- C `tolower((unsigned char)c)` in the C locale: `A`-`Z` map to `a`-`z`,
everything else is unchanged. -/
def toLowerAscii (c : Char) : Char :=
  if 'A' ≤ c && c ≤ 'Z' then Char.ofNat (c.toNat + 32) else c

/-- `SCRConfStringToLowercase`: copies the string, lowercasing each char. -/
def SCRConfStringToLowercase (str : List Char) : List Char :=
  str.map toLowerAscii

/-- `SCRConfReference` (util-reference-config.h): the system name and its url.
`url` is `none` when the instance is used purely as a lookup probe
(`SCRConfGetReference` passes `NULL`). -/
structure SCRConfReference where
  system : List Char
  url : Option (List Char)
deriving DecidableEq, Repr

/-- `SCRConfAllocSCRConfReference`: builds an entry, lowercasing the system
name and copying the url verbatim. -/
def SCRConfAllocSCRConfReference (system : List Char) (url : Option (List Char)) :
    SCRConfReference :=
  ⟨SCRConfStringToLowercase system, url⟩

/-- `SCRConfReferenceHashCompareFunc`: reports two entries equal when their
`system` strings have equal length and `memcmp` finds them byte-identical. -/
def SCRConfReferenceHashCompareFunc (ref1 ref2 : SCRConfReference) : Bool :=
  ref1.system.length == ref2.system.length && ref1.system == ref2.system

/-- Modelled from the spec: `HashTableLookup` (util-hash.c, not among the
sources).  The spec's Reference Store offers "lookup by name" over an
associative container; the lookup returns the stored entry that the compare
function supplied at `HashTableInit` (here `SCRConfReferenceHashCompareFunc`)
reports equal to the probe, or absent. -/
def hashTableLookup (ht : List SCRConfReference) (probe : SCRConfReference) :
    Option SCRConfReference :=
  ht.find? (fun e => SCRConfReferenceHashCompareFunc e probe)

/-- Modelled from the spec: `HashTableAdd` (util-hash.c, not among the
sources).  The spec's Reference Store stores the inserted entry; insertion
order over distinct keys is not exposed ("no ordering guarantee over entries
is required"), so the model appends. -/
def hashTableAdd (ht : List SCRConfReference) (ref : SCRConfReference) :
    List SCRConfReference :=
  ht ++ [ref]

/-- Modelled from the spec: `HashTableLookup` paired with the table state it
leaves behind; the spec's `get` is a read-only lookup, so the table comes back
as it went in. -/
def hashTableLookupEff (ht : List SCRConfReference) (probe : SCRConfReference) :
    Option SCRConfReference × List SCRConfReference :=
  (hashTableLookup ht probe, ht)

/-- `SCRConfIsLineBlankOrComment`: scan the line; `#` means comment (true),
any other non-whitespace char means a candidate directive (false), reaching
the terminator having seen only whitespace means blank (true). -/
def SCRConfIsLineBlankOrComment : List Char → Bool
  | [] => true
  | c :: rest =>
    if c == '#' then true
    else if !isWS c then false
    else SCRConfIsLineBlankOrComment rest

/-! ### The regex engine

`SC_RCONF_REGEX = "^\s*config\s+reference\s*:\s*([a-zA-Z][a-zA-Z0-9-_]*)\s+(.+)\s*$"`
compiled with default PCRE options and executed by `pcre_exec` at start
offset 0.  The `^` anchor (no MULTILINE) restricts matching to offset 0, so
the embedding runs the pattern at the start of the line only.  All repetition
in this pattern ranges over single-character classes, so the AST only needs
star/plus over a character predicate; the matcher implements PCRE
leftmost-greedy backtracking in continuation-passing style, and `$` (no
DOLLAR_ENDONLY) accepts at end of subject or before a final newline. -/

/-- Capture list: group number paired with captured text. -/
def Caps : Type := List (Nat × List Char)

/-- Regex AST, shaped after the constructs appearing in `SC_RCONF_REGEX`. -/
inductive RE where
  | eps : RE
  | sym (p : Char → Bool) : RE
  | seq (r1 r2 : RE) : RE
  | star (p : Char → Bool) : RE
  | plus (p : Char → Bool) : RE
  | group (n : Nat) (r : RE) : RE
  | eol : RE

/-- Greedy `p*`: consume as many `p`-chars as possible, backtracking one at a
time into the continuation `k`. -/
def matchStar (p : Char → Bool) (s : List Char) (caps : Caps)
    (k : List Char → Caps → Option Caps) : Option Caps :=
  match s with
  | [] => k [] caps
  | c :: rest =>
    if p c then
      match matchStar p rest caps k with
      | some res => some res
      | none => k (c :: rest) caps
    else k (c :: rest) caps

/-- CPS backtracking matcher; a `group` records the consumed substring under
its group number. -/
def matchRE : RE → List Char → Caps → (List Char → Caps → Option Caps) → Option Caps
  | .eps, s, caps, k => k s caps
  | .sym p, s, caps, k =>
    match s with
    | [] => none
    | c :: rest => if p c then k rest caps else none
  | .seq r1 r2, s, caps, k =>
    matchRE r1 s caps (fun s' caps' => matchRE r2 s' caps' k)
  | .star p, s, caps, k => matchStar p s caps k
  | .plus p, s, caps, k =>
    match s with
    | [] => none
    | c :: rest => if p c then matchStar p rest caps k else none
  | .group n r, s, caps, k =>
    matchRE r s caps (fun s' caps' => k s' ((n, s.take (s.length - s'.length)) :: caps'))
  | .eol, s, caps, k =>
    if s = [] ∨ s = ['\n'] then k s caps else none

/-- A literal string of the pattern, one `sym` per character. -/
def reString : List Char → RE
  | [] => .eps
  | c :: cs => .seq (.sym (fun x => x == c)) (reString cs)

/-- The AST of `SC_RCONF_REGEX`, construct for construct. -/
def scRconfRE : RE :=
  .seq (.star isWS)
  (.seq (reString "config".data)
  (.seq (.plus isWS)
  (.seq (reString "reference".data)
  (.seq (.star isWS)
  (.seq (.sym (fun x => x == ':'))
  (.seq (.star isWS)
  (.seq (.group 1 (.seq (.sym isAlphaAscii) (.star isNameChar)))
  (.seq (.plus isWS)
  (.seq (.group 2 (.plus isDotChar))
  (.seq (.star isWS) .eol))))))))))

/-- `pcre_exec(regex, regex_study, rawstr, ...)` on `SC_RCONF_REGEX`: the
capture vector of the first match, or `none` when the line does not match. -/
def pcreExec (line : List Char) : Option Caps :=
  matchRE scRconfRE line [] (fun _ caps => some caps)

/-- `pcre_get_substring(rawstr, ov, 30, n, ...)`: the text captured by group
`n`. -/
def pcreGetSubstring (caps : Caps) (n : Nat) : Option (List Char) :=
  (List.find? (fun p => p.1 == n) caps).map (fun p => p.2)

/-- The match-and-extract part of `SCRConfAddReference`: run `pcre_exec`, then
fetch capture 1 (the system) and capture 2 (the url). -/
def matchDirective (line : List Char) : Option (List Char × List Char) :=
  (pcreExec line).bind fun caps =>
    (pcreGetSubstring caps 1).bind fun system =>
      (pcreGetSubstring caps 2).map fun url => (system, url)

/-- `SCRConfAddReference`: parse one line; on no match log and leave the table
alone (return -1 path); on a match build the lowercased entry and add it
unless an equal entry is already present (first occurrence wins). -/
def SCRConfAddReference (rawstr : List Char) (ht : List SCRConfReference) :
    List SCRConfReference :=
  match matchDirective rawstr with
  | none => ht
  | some (system, url) =>
    match hashTableLookup ht (SCRConfAllocSCRConfReference system (some url)) with
    | none => hashTableAdd ht (SCRConfAllocSCRConfReference system (some url))
    | some _ => ht

/-- One iteration of the `fgets` loop body in `SCRConfParseFile`. -/
def processLine (ht : List SCRConfReference) (line : List Char) :
    List SCRConfReference :=
  if SCRConfIsLineBlankOrComment line then ht
  else SCRConfAddReference line ht

/-- The `SCRConfParseFile` loop over an already-chunked sequence of lines,
starting from a table state. -/
def loadLines (lines : List (List Char)) : List SCRConfReference :=
  List.foldl processLine [] lines

/-- `fgets(line, n+1, fd)` chunking step: take at most `n` characters,
stopping after (and including) a newline.  Returns the chunk and the rest of
the stream. -/
def fgetsTake : Nat → List Char → List Char × List Char
  | 0, s => ([], s)
  | _ + 1, [] => ([], [])
  | n + 1, c :: rest =>
    if c = '\n' then ([c], rest)
    else
      let p := fgetsTake n rest
      (c :: p.1, p.2)

/-- Fuelled splitting of the stream into successive `fgets(line, 1024, fd)`
chunks (each at most 1023 characters, `sizeof(line) - 1`). -/
def fgetsChunks : Nat → List Char → List (List Char)
  | 0, _ => []
  | _ + 1, [] => []
  | fuel + 1, c :: rest =>
    let p := fgetsTake 1023 (c :: rest)
    p.1 :: fgetsChunks fuel p.2

/-- All `fgets` chunks of a stream (the stream length is enough fuel: every
chunk of a nonempty stream is nonempty). -/
def fgetsSplit (s : List Char) : List (List Char) :=
  fgetsChunks s.length s

/-- `SCRConfParseFile`: read the stream through the 1024-byte `line` buffer
with `fgets`, feeding every chunk through the blank/comment check and
`SCRConfAddReference`. -/
def SCRConfParseFile (source : List Char) : List SCRConfReference :=
  loadLines (fgetsSplit source)

/-- `SCRConfGetReference`: build a lowercased probe with a `NULL` url and look
it up in the table. -/
def SCRConfGetReference (rconf_name : List Char) (ht : List SCRConfReference) :
    Option SCRConfReference :=
  hashTableLookup ht (SCRConfAllocSCRConfReference rconf_name none)

/-- `SCRConfGetReference` together with the table state it leaves behind
(the call only allocates a probe, looks it up read-only, and frees the
probe). -/
def SCRConfGetReferenceEff (rconf_name : List Char) (ht : List SCRConfReference) :
    Option SCRConfReference × List SCRConfReference :=
  hashTableLookupEff ht (SCRConfAllocSCRConfReference rconf_name none)

/-- `SCRConfLoadReferenceConfigFile`.  `initOk` abstracts the outcome of
`SCRConfInitContextAndLocalResources` (hash-table init, `fopen`,
`pcre_compile`, `pcre_study`); when it reports failure the function calls
`exit(EXIT_FAILURE)`, modelled as `none` (the call never returns).  Otherwise
it parses the stream, releases local resources and returns 0 with the
populated table. -/
def SCRConfLoadReferenceConfigFile (initOk : Bool) (source : List Char) :
    Option (Int × List SCRConfReference) :=
  if initOk then some (0, SCRConfParseFile source) else none

/-- The directive one line contributes in the `SCRConfParseFile` loop: `none`
for blank/comment lines (skipped before matching) and for lines the regex
rejects. -/
def lineDirective (l : List Char) : Option (List Char × List Char) :=
  if SCRConfIsLineBlankOrComment l then none else matchDirective l

/-- The captures of the first line of `lines` contributing a directive whose
lowercased name is `key`. -/
def firstDirective (key : List Char) (lines : List (List Char)) :
    Option (List Char × List Char) :=
  lines.findSome? fun l =>
    (lineDirective l).bind fun p =>
      if SCRConfStringToLowercase p.1 = key then some p else none

/-! ### Concrete sources used by the testable scenarios -/

/-- The buffer of `SCRConfGenerateValidDummyReferenceConfigFD01`: five lines,
three distinct names, two exact duplicates (Scenario A). -/
def fd01Src : List Char :=
  ("config reference: one http://www.one.com\n" ++
   "config reference: two http://www.two.com\n" ++
   "config reference: three http://www.three.com\n" ++
   "config reference: one http://www.one.com\n" ++
   "config reference: three http://www.three.com\n").data

/-- Scenario B: one valid line plus three structurally invalid lines
(missing colon, missing value, wrong keyword). -/
def scenBSrc : List Char :=
  ("config reference: one http://www.one.com\n" ++
   "config reference two http://www.two.com\n" ++
   "config reference: four\n" ++
   "confug reference: five http://www.five.com\n").data

/-- Two well-formed lines with the same name and different urls. -/
def dupSrc : List Char :=
  ("config reference: cve http://u1\n" ++
   "config reference: cve http://u2\n").data

/-- Same-name-different-case pair of well-formed lines. -/
def caseLines : List (List Char) :=
  ["config reference: one http://u1\n".data,
   "config reference: ONE http://u2\n".data]

/-- A well-formed line whose value has internal whitespace and trailing
whitespace before the newline. -/
def wsValueLine : List Char :=
  "config reference: cve a  b \n".data

/-- A well-formed line with one trailing space before the newline. -/
def trailWSLine : List Char :=
  "config reference: cve http://x \n".data

/-- A 1030-character source forming a single well-formed directive line
longer than the 1023 characters an `fgets` call can deliver. -/
def longLineSrc : List Char :=
  "config reference: cve ".data ++ List.replicate 1007 'x' ++ ['\n']

/-! ### Character-class facts -/

theorem isWS_ne_hash {c : Char} (h : isWS c = true) : c ≠ '#' := by
  simp only [isWS, Bool.or_eq_true, beq_iff_eq] at h
  rcases h with ((((h | h) | h) | h) | h) | h <;> subst h <;> decide

theorem isDotChar_ne_newline {c : Char} (h : isDotChar c = true) : c ≠ '\n' := by
  simpa [isDotChar, bne_iff_ne] using h

/-! ### Unfolding equations for the matcher -/

theorem matchStar_nil (p : Char → Bool) (caps : Caps) (k : List Char → Caps → Option Caps) :
    matchStar p [] caps k = k [] caps := rfl

theorem matchStar_cons (p : Char → Bool) (c : Char) (rest : List Char) (caps : Caps)
    (k : List Char → Caps → Option Caps) :
    matchStar p (c :: rest) caps k =
      if p c then
        match matchStar p rest caps k with
        | some res => some res
        | none => k (c :: rest) caps
      else k (c :: rest) caps := rfl

theorem matchRE_seq (r1 r2 : RE) (s : List Char) (caps : Caps)
    (k : List Char → Caps → Option Caps) :
    matchRE (.seq r1 r2) s caps k =
      matchRE r1 s caps (fun s' caps' => matchRE r2 s' caps' k) := rfl

theorem matchRE_star (p : Char → Bool) (s : List Char) (caps : Caps)
    (k : List Char → Caps → Option Caps) :
    matchRE (.star p) s caps k = matchStar p s caps k := rfl

theorem matchRE_group (n : Nat) (r : RE) (s : List Char) (caps : Caps)
    (k : List Char → Caps → Option Caps) :
    matchRE (.group n r) s caps k =
      matchRE r s caps
        (fun s' caps' => k s' ((n, s.take (s.length - s'.length)) :: caps')) := rfl

/-! ### Destructors: what a successful match of each construct implies -/

theorem matchRE_sym_some {p : Char → Bool} {s : List Char} {caps : Caps}
    {k : List Char → Caps → Option Caps} {res : Caps}
    (h : matchRE (.sym p) s caps k = some res) :
    ∃ c rest, s = c :: rest ∧ p c = true ∧ k rest caps = some res := by
  cases s with
  | nil => exact absurd h (by simp [matchRE])
  | cons c rest =>
    by_cases hp : p c = true
    · exact ⟨c, rest, rfl, hp, by simpa [matchRE, hp] using h⟩
    · exact absurd h (by simp [matchRE, hp])

theorem matchStar_some {p : Char → Bool} {caps : Caps}
    {k : List Char → Caps → Option Caps} {res : Caps} :
    ∀ {s : List Char}, matchStar p s caps k = some res →
      ∃ pre suf, s = pre ++ suf ∧ (∀ c ∈ pre, p c = true) ∧ k suf caps = some res := by
  intro s
  induction s with
  | nil =>
    intro h
    rw [matchStar_nil] at h
    exact ⟨[], [], rfl, by simp, h⟩
  | cons c rest ih =>
    intro h
    rw [matchStar_cons] at h
    by_cases hp : p c = true
    · rw [if_pos hp] at h
      cases hm : matchStar p rest caps k with
      | some r2 =>
        rw [hm] at h
        have h2 : some r2 = some res := h
        have hrr : r2 = res := by injection h2
        subst hrr
        obtain ⟨pre, suf, hsplit, hpre, hk⟩ := ih hm
        refine ⟨c :: pre, suf, by rw [hsplit]; rfl, ?_, hk⟩
        intro x hx
        rcases List.mem_cons.mp hx with hx | hx
        · exact hx ▸ hp
        · exact hpre x hx
      | none =>
        rw [hm] at h
        have h2 : k (c :: rest) caps = some res := h
        exact ⟨[], c :: rest, rfl, by simp, h2⟩
    · rw [if_neg hp] at h
      exact ⟨[], c :: rest, rfl, by simp, h⟩

theorem matchRE_plus_some {p : Char → Bool} {s : List Char} {caps : Caps}
    {k : List Char → Caps → Option Caps} {res : Caps}
    (h : matchRE (.plus p) s caps k = some res) :
    ∃ c pre suf, s = c :: (pre ++ suf) ∧ p c = true ∧ (∀ x ∈ pre, p x = true) ∧
      k suf caps = some res := by
  cases s with
  | nil => exact absurd h (by simp [matchRE])
  | cons c rest =>
    by_cases hp : p c = true
    · have h2 : matchStar p rest caps k = some res := by simpa [matchRE, hp] using h
      obtain ⟨pre, suf, hsplit, hpre, hk⟩ := matchStar_some h2
      exact ⟨c, pre, suf, by rw [hsplit], hp, hpre, hk⟩
    · exact absurd h (by simp [matchRE, hp])

theorem matchRE_eol_some {s : List Char} {caps : Caps}
    {k : List Char → Caps → Option Caps} {res : Caps}
    (h : matchRE .eol s caps k = some res) :
    (s = [] ∨ s = ['\n']) ∧ k s caps = some res := by
  by_cases hc : s = [] ∨ s = ['\n']
  · exact ⟨hc, by simpa [matchRE, hc] using h⟩
  · exact absurd h (by simp [matchRE, hc])

theorem matchRE_reString_some :
    ∀ (cs : List Char) {s : List Char} {caps : Caps}
      {k : List Char → Caps → Option Caps} {res : Caps},
      matchRE (reString cs) s caps k = some res →
      ∃ suf, s = cs ++ suf ∧ k suf caps = some res := by
  intro cs
  induction cs with
  | nil =>
    intro s caps k res h
    exact ⟨s, rfl, h⟩
  | cons c cs ih =>
    intro s caps k res h
    rw [reString, matchRE_seq] at h
    obtain ⟨c', rest, hs, hc, hk⟩ := matchRE_sym_some h
    have hc' : c' = c := by simpa [beq_iff_eq] using hc
    subst hc'
    obtain ⟨suf, hrest, hk2⟩ := ih hk
    exact ⟨suf, by rw [hs, hrest]; rfl, hk2⟩

theorem take_sub_append (xs ys : List Char) :
    (xs ++ ys).take ((xs ++ ys).length - ys.length) = xs := by
  rw [List.length_append, Nat.add_sub_cancel, List.take_left]

/-! ### Seq-context destructors (keep every inversion step syntactic) -/

theorem matchRE_seq_sym_some {p : Char → Bool} {r2 : RE} {s : List Char} {caps : Caps}
    {k : List Char → Caps → Option Caps} {res : Caps}
    (h : matchRE (.seq (.sym p) r2) s caps k = some res) :
    ∃ c rest, s = c :: rest ∧ p c = true ∧ matchRE r2 rest caps k = some res := by
  rw [matchRE_seq] at h
  obtain ⟨c, rest, hs, hp, hk⟩ := matchRE_sym_some h
  exact ⟨c, rest, hs, hp, hk⟩

theorem matchRE_seq_star_some {p : Char → Bool} {r2 : RE} {s : List Char} {caps : Caps}
    {k : List Char → Caps → Option Caps} {res : Caps}
    (h : matchRE (.seq (.star p) r2) s caps k = some res) :
    ∃ pre suf, s = pre ++ suf ∧ (∀ c ∈ pre, p c = true) ∧
      matchRE r2 suf caps k = some res := by
  rw [matchRE_seq, matchRE_star] at h
  obtain ⟨pre, suf, hs, hpre, hk⟩ := matchStar_some h
  exact ⟨pre, suf, hs, hpre, hk⟩

theorem matchRE_seq_plus_some {p : Char → Bool} {r2 : RE} {s : List Char} {caps : Caps}
    {k : List Char → Caps → Option Caps} {res : Caps}
    (h : matchRE (.seq (.plus p) r2) s caps k = some res) :
    ∃ c pre suf, s = c :: (pre ++ suf) ∧ p c = true ∧ (∀ x ∈ pre, p x = true) ∧
      matchRE r2 suf caps k = some res := by
  rw [matchRE_seq] at h
  obtain ⟨c, pre, suf, hs, hc, hpre, hk⟩ := matchRE_plus_some h
  exact ⟨c, pre, suf, hs, hc, hpre, hk⟩

theorem matchRE_seq_reString_some {r2 : RE} (cs : List Char) {s : List Char} {caps : Caps}
    {k : List Char → Caps → Option Caps} {res : Caps}
    (h : matchRE (.seq (reString cs) r2) s caps k = some res) :
    ∃ suf, s = cs ++ suf ∧ matchRE r2 suf caps k = some res := by
  rw [matchRE_seq] at h
  obtain ⟨suf, hs, hk⟩ := matchRE_reString_some cs h
  exact ⟨suf, hs, hk⟩

/-- Group 1 of `SC_RCONF_REGEX` in sequence context: consumes a letter followed
by name characters and records them as capture 1. -/
theorem matchRE_group_name_some {r2 : RE} {s : List Char} {caps : Caps}
    {k : List Char → Caps → Option Caps} {res : Caps}
    (h : matchRE (.seq (.group 1 (.seq (.sym isAlphaAscii) (.star isNameChar))) r2)
      s caps k = some res) :
    ∃ a mid suf, s = a :: (mid ++ suf) ∧ isAlphaAscii a = true ∧
      (∀ x ∈ mid, isNameChar x = true) ∧
      matchRE r2 suf ((1, a :: mid) :: caps) k = some res := by
  rw [matchRE_seq, matchRE_group, matchRE_seq] at h
  obtain ⟨a, s1, hs, ha, hk⟩ := matchRE_sym_some h
  subst hs
  have hk1 : matchStar isNameChar s1 caps
      (fun s' caps' =>
        matchRE r2 s' ((1, (a :: s1).take ((a :: s1).length - s'.length)) :: caps') k) =
      some res := hk
  obtain ⟨mid, suf, hs1, hmid, hk2⟩ := matchStar_some hk1
  subst hs1
  have hk3 : matchRE r2 suf
      ((1, (a :: (mid ++ suf)).take ((a :: (mid ++ suf)).length - suf.length)) :: caps) k =
      some res := hk2
  have hcap : (a :: (mid ++ suf)).take ((a :: (mid ++ suf)).length - suf.length) =
      a :: mid := by
    have h0 := take_sub_append (a :: mid) suf
    rw [List.cons_append] at h0
    exact h0
  rw [hcap] at hk3
  exact ⟨a, mid, suf, rfl, ha, hmid, hk3⟩

/-- Group 2 of `SC_RCONF_REGEX` in sequence context: consumes one or more
non-newline characters and records them as capture 2. -/
theorem matchRE_group_url_some {r2 : RE} {s : List Char} {caps : Caps}
    {k : List Char → Caps → Option Caps} {res : Caps}
    (h : matchRE (.seq (.group 2 (.plus isDotChar)) r2) s caps k = some res) :
    ∃ d dp suf, s = d :: (dp ++ suf) ∧ isDotChar d = true ∧
      (∀ x ∈ dp, isDotChar x = true) ∧
      matchRE r2 suf ((2, d :: dp) :: caps) k = some res := by
  rw [matchRE_seq, matchRE_group] at h
  obtain ⟨d, dp, suf, hs, hd, hdp, hk⟩ := matchRE_plus_some h
  subst hs
  have hk1 : matchRE r2 suf
      ((2, (d :: (dp ++ suf)).take ((d :: (dp ++ suf)).length - suf.length)) :: caps) k =
      some res := hk
  have hcap : (d :: (dp ++ suf)).take ((d :: (dp ++ suf)).length - suf.length) =
      d :: dp := by
    have h0 := take_sub_append (d :: dp) suf
    rw [List.cons_append] at h0
    exact h0
  rw [hcap] at hk1
  exact ⟨d, dp, suf, rfl, hd, hdp, hk1⟩

/-- The `\s*$` tail in sequence context. -/
theorem matchRE_star_eol_some {p : Char → Bool} {s : List Char} {caps : Caps}
    {k : List Char → Caps → Option Caps} {res : Caps}
    (h : matchRE (.seq (.star p) .eol) s caps k = some res) :
    ∃ pre suf, s = pre ++ suf ∧ (∀ c ∈ pre, p c = true) ∧
      (suf = [] ∨ suf = ['\n']) ∧ k suf caps = some res := by
  rw [matchRE_seq, matchRE_star] at h
  obtain ⟨pre, suf, hs, hpre, hk⟩ := matchStar_some h
  have hk1 : matchRE .eol suf caps k = some res := hk
  obtain ⟨hend, hk2⟩ := matchRE_eol_some hk1
  exact ⟨pre, suf, hs, hpre, hend, hk2⟩

/-- Inversion of a successful `matchDirective`: the line opens with optional
whitespace followed by the literal `config` (so by `c`), the captured system
name is nonempty, starts with a letter and continues with name characters, and
the captured url is nonempty and newline-free. -/
theorem matchDirective_shape {l n v : List Char}
    (h : matchDirective l = some (n, v)) :
    (∃ ws0 rest, l = ws0 ++ 'c' :: rest ∧ (∀ c ∈ ws0, isWS c = true)) ∧
    (∃ a cs, n = a :: cs ∧ isAlphaAscii a = true ∧ (∀ x ∈ cs, isNameChar x = true)) ∧
    (v ≠ [] ∧ ∀ c ∈ v, c ≠ '\n') := by
  unfold matchDirective at h
  simp only [Option.bind_eq_some, Option.map_eq_some', Prod.mk.injEq] at h
  obtain ⟨caps, hexec, n', hn, v', hv, hnn, hvv⟩ := h
  subst hnn; subst hvv
  unfold pcreExec scRconfRE at hexec
  -- `^\s*`
  obtain ⟨ws0, s1, rfl, hws0, hexec⟩ := matchRE_seq_star_some hexec
  -- `config`
  obtain ⟨s2, rfl, hexec⟩ := matchRE_seq_reString_some "config".data hexec
  -- `\s+`
  obtain ⟨w1, wp1, s3, rfl, hw1, hwp1, hexec⟩ := matchRE_seq_plus_some hexec
  -- `reference`
  obtain ⟨s4, rfl, hexec⟩ := matchRE_seq_reString_some "reference".data hexec
  -- `\s*`
  obtain ⟨ws1, s5, rfl, hws1, hexec⟩ := matchRE_seq_star_some hexec
  -- `:`
  obtain ⟨cc, s6, rfl, hcc, hexec⟩ := matchRE_seq_sym_some hexec
  -- `\s*`
  obtain ⟨ws2, s7, rfl, hws2, hexec⟩ := matchRE_seq_star_some hexec
  -- group 1: `[a-zA-Z][a-zA-Z0-9-_]*`
  obtain ⟨a, mid, s9, rfl, ha, hmid, hexec⟩ := matchRE_group_name_some hexec
  -- `\s+`
  obtain ⟨w2, wp2, s10, rfl, hw2, hwp2, hexec⟩ := matchRE_seq_plus_some hexec
  -- group 2: `(.+)`
  obtain ⟨d, dp, s11, rfl, hd, hdp, hexec⟩ := matchRE_group_url_some hexec
  -- `\s*$`
  obtain ⟨ws3, s12, rfl, hws3, -, hk0⟩ := matchRE_star_eol_some hexec
  have hcaps : some ((2, d :: dp) :: (1, a :: mid) :: ([] : Caps)) = some caps := hk0
  have hcaps2 : (2, d :: dp) :: (1, a :: mid) :: ([] : Caps) = caps := by
    injection hcaps
  subst hcaps2
  have hn' : some (a :: mid) = some n' := hn
  have hv' : some (d :: dp) = some v' := hv
  have hne : a :: mid = n' := by injection hn'
  have hve : d :: dp = v' := by injection hv'
  subst hne; subst hve
  refine ⟨⟨ws0, _, rfl, hws0⟩, ⟨a, mid, rfl, ha, hmid⟩, ?_, ?_⟩
  · exact List.cons_ne_nil d dp
  · intro c hc
    rcases List.mem_cons.mp hc with rfl | hc
    · exact isDotChar_ne_newline hd
    · exact isDotChar_ne_newline (hdp c hc)

/-! ### Classifier facts -/

theorem blankOrComment_cons (c : Char) (rest : List Char) :
    SCRConfIsLineBlankOrComment (c :: rest) =
      if c == '#' then true
      else if !isWS c then false
      else SCRConfIsLineBlankOrComment rest := rfl

theorem blankOrComment_ws_cons_false {ws0 : List Char} {c0 : Char} {rest : List Char}
    (hws : ∀ c ∈ ws0, isWS c = true) (hc0 : isWS c0 = false) (hhash : c0 ≠ '#') :
    SCRConfIsLineBlankOrComment (ws0 ++ c0 :: rest) = false := by
  induction ws0 with
  | nil =>
    rw [List.nil_append, blankOrComment_cons]
    simp [beq_iff_eq, hhash, hc0]
  | cons a as ih =>
    have ha := hws a (List.mem_cons_self a as)
    have ha2 : a ≠ '#' := isWS_ne_hash ha
    rw [List.cons_append, blankOrComment_cons]
    simp only [beq_iff_eq, ha, if_neg ha2, Bool.not_true, Bool.false_eq_true, if_false]
    exact ih fun c hc => hws c (List.mem_cons_of_mem a hc)

/-- A line the regex accepts is neither blank nor a comment, so the
`SCRConfParseFile` loop never skips it. -/
theorem matchDirective_not_blank {l : List Char} {nv : List Char × List Char}
    (h : matchDirective l = some nv) :
    SCRConfIsLineBlankOrComment l = false := by
  obtain ⟨n, v⟩ := nv
  obtain ⟨⟨ws0, rest, rfl, hws0⟩, -, -⟩ := matchDirective_shape h
  exact blankOrComment_ws_cons_false hws0 (by decide) (by decide)

/-! ### Comparator and store lemmas -/

theorem compare_eq_true_iff (r1 r2 : SCRConfReference) :
    SCRConfReferenceHashCompareFunc r1 r2 = true ↔ r1.system = r2.system := by
  simp only [SCRConfReferenceHashCompareFunc, Bool.and_eq_true, beq_iff_eq]
  constructor
  · rintro ⟨-, h⟩; exact h
  · intro h; exact ⟨by rw [h], h⟩

theorem compare_false_of_ne {r1 r2 : SCRConfReference} (h : r1.system ≠ r2.system) :
    SCRConfReferenceHashCompareFunc r1 r2 = false := by
  cases hb : SCRConfReferenceHashCompareFunc r1 r2 with
  | false => rfl
  | true => exact absurd ((compare_eq_true_iff _ _).mp hb) h

/-- The comparator only reads the probe's `system`, so probes with equal
systems give equal lookups. -/
theorem lookup_congr {ht : List SCRConfReference} {p1 p2 : SCRConfReference}
    (h : p1.system = p2.system) :
    hashTableLookup ht p1 = hashTableLookup ht p2 := by
  unfold hashTableLookup SCRConfReferenceHashCompareFunc
  rw [h]

theorem processLine_of_blank {ht : List SCRConfReference} {l : List Char}
    (h : SCRConfIsLineBlankOrComment l = true) : processLine ht l = ht := by
  simp [processLine, h]

theorem processLine_of_none {ht : List SCRConfReference} {l : List Char}
    (h : matchDirective l = none) : processLine ht l = ht := by
  unfold processLine
  by_cases hb : SCRConfIsLineBlankOrComment l = true
  · rw [if_pos hb]
  · rw [if_neg hb]
    simp [SCRConfAddReference, h]

theorem processLine_of_some {ht : List SCRConfReference} {l n v : List Char}
    (h : matchDirective l = some (n, v)) :
    processLine ht l =
      match hashTableLookup ht (SCRConfAllocSCRConfReference n (some v)) with
      | none => hashTableAdd ht (SCRConfAllocSCRConfReference n (some v))
      | some _ => ht := by
  unfold processLine
  rw [if_neg (by simp [matchDirective_not_blank h])]
  unfold SCRConfAddReference
  rw [h]

theorem firstDirective_cons_none {key l : List Char} {ls : List (List Char)}
    (h : lineDirective l = none) :
    firstDirective key (l :: ls) = firstDirective key ls := by
  simp [firstDirective, List.findSome?_cons, h]

theorem firstDirective_cons_some {key l n v : List Char} {ls : List (List Char)}
    (h : lineDirective l = some (n, v)) :
    firstDirective key (l :: ls) =
      if SCRConfStringToLowercase n = key then some (n, v)
      else firstDirective key ls := by
  by_cases hk : SCRConfStringToLowercase n = key <;>
    simp [firstDirective, List.findSome?_cons, h, hk]

/-- How a table lookup relates to the whole parsing fold: an entry already
found keeps winning, and otherwise the first contributing line with the
probe's key decides the result. -/
theorem lookup_foldl (lines : List (List Char)) :
    ∀ (ht : List SCRConfReference) (probe : SCRConfReference),
    hashTableLookup (List.foldl processLine ht lines) probe =
      match hashTableLookup ht probe with
      | some e => some e
      | none => (firstDirective probe.system lines).map
          (fun p => SCRConfAllocSCRConfReference p.1 (some p.2)) := by
  induction lines with
  | nil =>
    intro ht probe
    simp only [List.foldl_nil, firstDirective, List.findSome?_nil, Option.map_none']
    cases hq : hashTableLookup ht probe <;> rfl
  | cons l ls ih =>
    intro ht probe
    rw [List.foldl_cons, ih (processLine ht l) probe]
    cases hld : lineDirective l with
    | none =>
      have hpl : processLine ht l = ht := by
        unfold lineDirective at hld
        by_cases hb : SCRConfIsLineBlankOrComment l = true
        · exact processLine_of_blank hb
        · rw [if_neg hb] at hld
          exact processLine_of_none hld
      rw [hpl, firstDirective_cons_none hld]
    | some nv =>
      obtain ⟨n, v⟩ := nv
      have hm : matchDirective l = some (n, v) := by
        unfold lineDirective at hld
        by_cases hb : SCRConfIsLineBlankOrComment l = true
        · rw [if_pos hb] at hld
          exact absurd hld (by simp)
        · rw [if_neg hb] at hld
          exact hld
      have hpl := @processLine_of_some ht l n v hm
      rw [firstDirective_cons_some hld]
      by_cases hk : SCRConfStringToLowercase n = probe.system
      · rw [if_pos hk]
        have hpp : (SCRConfAllocSCRConfReference n (some v)).system = probe.system := hk
        have hlc : hashTableLookup ht (SCRConfAllocSCRConfReference n (some v)) =
            hashTableLookup ht probe := lookup_congr hpp
        cases hq : hashTableLookup ht probe with
        | some e =>
          rw [hlc, hq] at hpl
          rw [hpl, hq]
        | none =>
          rw [hlc, hq] at hpl
          have hone : List.find? (fun e => SCRConfReferenceHashCompareFunc e probe)
              [SCRConfAllocSCRConfReference n (some v)] =
              some (SCRConfAllocSCRConfReference n (some v)) := by
            simp [List.find?, (compare_eq_true_iff _ _).mpr hpp]
          have hfind : hashTableLookup
              (hashTableAdd ht (SCRConfAllocSCRConfReference n (some v))) probe =
              some (SCRConfAllocSCRConfReference n (some v)) := by
            unfold hashTableAdd hashTableLookup
            rw [List.find?_append]
            have hnone : List.find? (fun e => SCRConfReferenceHashCompareFunc e probe) ht =
                none := hq
            rw [hnone, Option.none_or]
            exact hone
          have hpl2 : processLine ht l =
              hashTableAdd ht (SCRConfAllocSCRConfReference n (some v)) := hpl
          rw [hpl2, hfind]
          rfl
      · rw [if_neg hk]
        have hne : (SCRConfAllocSCRConfReference n (some v)).system ≠ probe.system := hk
        have hpres : hashTableLookup (processLine ht l) probe =
            hashTableLookup ht probe := by
          rw [hpl]
          cases hq2 : hashTableLookup ht (SCRConfAllocSCRConfReference n (some v)) with
          | some e => rfl
          | none =>
            show hashTableLookup
              (hashTableAdd ht (SCRConfAllocSCRConfReference n (some v))) probe =
              hashTableLookup ht probe
            unfold hashTableAdd hashTableLookup
            rw [List.find?_append]
            have hf1 : List.find? (fun e => SCRConfReferenceHashCompareFunc e probe)
                [SCRConfAllocSCRConfReference n (some v)] = none := by
              simp [List.find?, compare_false_of_ne hne]
            rw [hf1, Option.or_none]
        rw [hpres]

/-- `processLine` preserves key-distinctness: an entry is only added when no
entry with the same `system` is present. -/
theorem pairwise_processLine {ht : List SCRConfReference} {l : List Char}
    (hp : ht.Pairwise (fun a b => a.system ≠ b.system)) :
    (processLine ht l).Pairwise (fun a b => a.system ≠ b.system) := by
  by_cases hb : SCRConfIsLineBlankOrComment l = true
  · rw [processLine_of_blank hb]; exact hp
  · cases hm : matchDirective l with
    | none => rw [processLine_of_none hm]; exact hp
    | some nv =>
      obtain ⟨n, v⟩ := nv
      rw [processLine_of_some hm]
      cases hq : hashTableLookup ht (SCRConfAllocSCRConfReference n (some v)) with
      | some e => exact hp
      | none =>
        refine List.pairwise_append.mpr ⟨hp, List.pairwise_singleton _ _, ?_⟩
        intro a ha b hb2
        have hb3 : b = SCRConfAllocSCRConfReference n (some v) := by simpa using hb2
        subst hb3
        have hno := List.find?_eq_none.mp hq a ha
        intro hsys
        exact hno ((compare_eq_true_iff _ _).mpr hsys)

theorem pairwise_foldl (lines : List (List Char)) :
    ∀ ht : List SCRConfReference, ht.Pairwise (fun a b => a.system ≠ b.system) →
    (List.foldl processLine ht lines).Pairwise (fun a b => a.system ≠ b.system) := by
  induction lines with
  | nil => intro ht hp; simpa using hp
  | cons l ls ih =>
    intro ht hp
    rw [List.foldl_cons]
    exact ih _ (pairwise_processLine hp)

/-- Under key-distinctness, the entries carrying the key of a member reduce to
that member alone. -/
theorem filter_key_singleton {key : List Char} :
    ∀ {st : List SCRConfReference} {e : SCRConfReference},
    st.Pairwise (fun a b => a.system ≠ b.system) → e ∈ st → e.system = key →
    st.filter (fun x => x.system == key) = [e] := by
  intro st
  induction st with
  | nil =>
    intro e hp he hk
    exact absurd he (List.not_mem_nil e)
  | cons a rest ih =>
    intro e hp he hk
    rw [List.pairwise_cons] at hp
    obtain ⟨ha, hrest⟩ := hp
    rcases List.mem_cons.mp he with rfl | he2
    · have hnil : rest.filter (fun x => x.system == key) = [] := by
        rw [List.filter_eq_nil_iff]
        intro b hb
        simp only [beq_iff_eq]
        intro hbk
        exact ha b hb (hk.trans hbk.symm)
      have hstep : List.filter (fun x => x.system == key) (e :: rest) =
          e :: List.filter (fun x => x.system == key) rest :=
        List.filter_cons_of_pos (beq_iff_eq.mpr hk)
      rw [hstep, hnil]
    · have hane : ¬ ((a.system == key) = true) := by
        simp only [beq_iff_eq]
        intro hak
        exact ha e he2 (hak.trans hk.symm)
      have hstep : List.filter (fun x => x.system == key) (a :: rest) =
          List.filter (fun x => x.system == key) rest :=
        List.filter_cons_of_neg hane
      rw [hstep]
      exact ih hrest he2 hk

/-! ### `fgets` chunking lemmas -/

theorem fgetsTake_fst_length : ∀ (n : Nat) (s : List Char),
    (fgetsTake n s).1.length ≤ n := by
  intro n
  induction n with
  | zero => intro s; simp [fgetsTake]
  | succ n ih =>
    intro s
    cases s with
    | nil => simp [fgetsTake]
    | cons c rest =>
      by_cases hc : c = '\n'
      · simp [fgetsTake, hc]
      · simp only [fgetsTake, if_neg hc, List.length_cons]
        exact Nat.succ_le_succ (ih rest)

theorem fgetsTake_snd_length : ∀ (n : Nat) (s : List Char),
    (fgetsTake n s).2.length ≤ s.length := by
  intro n
  induction n with
  | zero => intro s; simp [fgetsTake]
  | succ n ih =>
    intro s
    cases s with
    | nil => simp [fgetsTake]
    | cons c rest =>
      by_cases hc : c = '\n'
      · simp [fgetsTake, hc]
      · simp only [fgetsTake, if_neg hc, List.length_cons]
        exact Nat.le_succ_of_le (ih rest)

theorem fgetsTake_cons_snd_le (n : Nat) (c : Char) (rest : List Char) :
    (fgetsTake (n + 1) (c :: rest)).2.length ≤ rest.length := by
  by_cases hc : c = '\n'
  · simp [fgetsTake, hc]
  · simp only [fgetsTake, if_neg hc]
    exact fgetsTake_snd_length n rest

theorem fgetsChunks_nil : ∀ (f : Nat), fgetsChunks f [] = [] := by
  intro f
  cases f <;> rfl

/-- The fuel only needs to dominate the stream length; any two sufficient
fuels chunk identically. -/
theorem fgetsChunks_mono : ∀ (f1 f2 : Nat) (s : List Char),
    s.length ≤ f1 → s.length ≤ f2 → fgetsChunks f1 s = fgetsChunks f2 s := by
  intro f1
  induction f1 with
  | zero =>
    intro f2 s h1 h2
    have hs : s = [] := List.eq_nil_of_length_eq_zero (Nat.le_zero.mp h1)
    subst hs
    rw [fgetsChunks_nil, fgetsChunks_nil]
  | succ f1 ih =>
    intro f2 s h1 h2
    cases s with
    | nil => rw [fgetsChunks_nil, fgetsChunks_nil]
    | cons c rest =>
      cases f2 with
      | zero => simp at h2
      | succ f2 =>
        show (fgetsTake 1023 (c :: rest)).1 ::
            fgetsChunks f1 (fgetsTake 1023 (c :: rest)).2 =
          (fgetsTake 1023 (c :: rest)).1 ::
            fgetsChunks f2 (fgetsTake 1023 (c :: rest)).2
        have hle := fgetsTake_cons_snd_le 1022 c rest
        have hr1 : rest.length ≤ f1 := by
          simp only [List.length_cons] at h1
          omega
        have hr2 : rest.length ≤ f2 := by
          simp only [List.length_cons] at h2
          omega
        rw [ih f2 _ (le_trans hle hr1) (le_trans hle hr2)]

theorem fgetsTake_no_newline : ∀ (n : Nat) (s : List Char),
    (∀ c ∈ s.take n, c ≠ '\n') → fgetsTake n s = (s.take n, s.drop n) := by
  intro n
  induction n with
  | zero => intro s h; simp [fgetsTake]
  | succ n ih =>
    intro s h
    cases s with
    | nil => simp [fgetsTake]
    | cons c rest =>
      have hc : c ≠ '\n' := h c (by simp)
      simp only [fgetsTake, if_neg hc]
      rw [ih rest (fun x hx => h x (List.mem_cons_of_mem c hx))]
      simp [List.take_succ_cons, List.drop_succ_cons]

/-- A stream whose first 1023 characters hold no newline is chunked into its
1023-character head followed by the chunks of the remainder. -/
theorem fgetsSplit_long_decomp {s : List Char} (h1 : 1024 ≤ s.length)
    (h2 : ∀ c ∈ s.take 1023, c ≠ '\n') :
    fgetsSplit s = s.take 1023 :: fgetsSplit (s.drop 1023) := by
  unfold fgetsSplit
  cases s with
  | nil => simp at h1
  | cons c rest =>
    have htake := fgetsTake_no_newline 1023 (c :: rest) h2
    show (fgetsTake 1023 (c :: rest)).1 ::
        fgetsChunks rest.length (fgetsTake 1023 (c :: rest)).2 = _
    rw [htake]
    congr 1
    apply fgetsChunks_mono
    · rw [List.length_drop]
      simp only [List.length_cons]
      omega
    · exact Nat.le_refl _

theorem fgetsSplit_ne_nil {s : List Char} (h : s ≠ []) : fgetsSplit s ≠ [] := by
  cases s with
  | nil => exact absurd rfl h
  | cons c rest =>
    show (fgetsTake 1023 (c :: rest)).1 ::
        fgetsChunks rest.length (fgetsTake 1023 (c :: rest)).2 ≠ []
    exact List.cons_ne_nil _ _

theorem fgetsChunks_chunk_le : ∀ (f : Nat) (s : List Char),
    ∀ chunk ∈ fgetsChunks f s, chunk.length ≤ 1023 := by
  intro f
  induction f with
  | zero =>
    intro s chunk hc
    simp [fgetsChunks] at hc
  | succ f ih =>
    intro s chunk hc
    cases s with
    | nil => simp [fgetsChunks] at hc
    | cons c rest =>
      have hc' : chunk ∈ (fgetsTake 1023 (c :: rest)).1 ::
          fgetsChunks f (fgetsTake 1023 (c :: rest)).2 := hc
      rcases List.mem_cons.mp hc' with rfl | hc2
      · exact fgetsTake_fst_length 1023 (c :: rest)
      · exact ih _ chunk hc2

/-! ### Lookup after a full load -/

theorem findSome?_mem_of_eq_some {α β : Type} {f : α → Option β} :
    ∀ {l : List α} {b : β}, l.findSome? f = some b → ∃ a, a ∈ l ∧ f a = some b := by
  intro l
  induction l with
  | nil =>
    intro b h
    simp [List.findSome?_nil] at h
  | cons x xs ih =>
    intro b h
    have h2 : (match f x with
        | some c => some c
        | none => List.findSome? f xs) = some b := h
    cases hfx : f x with
    | some c =>
      rw [hfx] at h2
      have h3 : some c = some b := h2
      have hcb : c = b := by injection h3
      exact ⟨x, List.mem_cons_self x xs, hcb ▸ hfx⟩
    | none =>
      rw [hfx] at h2
      have h3 : List.findSome? f xs = some b := h2
      obtain ⟨a, ha, hfa⟩ := ih h3
      exact ⟨a, List.mem_cons_of_mem x ha, hfa⟩

/-- After loading, looking a name up (in any casing) returns the entry built
from the first contributing line whose lowercased name agrees, provided some
line of the source matches with that name. -/
theorem getReference_eq_first (lines : List (List Char)) (q l0 n0 v0 : List Char)
    (hl0 : l0 ∈ lines) (hm : matchDirective l0 = some (n0, v0))
    (hq : SCRConfStringToLowercase q = SCRConfStringToLowercase n0) :
    ∃ n1 v1, firstDirective (SCRConfStringToLowercase n0) lines = some (n1, v1) ∧
      SCRConfStringToLowercase n1 = SCRConfStringToLowercase n0 ∧
      SCRConfGetReference q (loadLines lines) =
        some ⟨SCRConfStringToLowercase n1, some v1⟩ := by
  have hld : lineDirective l0 = some (n0, v0) := by
    simp [lineDirective, matchDirective_not_blank hm, hm]
  cases hfd : firstDirective (SCRConfStringToLowercase n0) lines with
  | none =>
    exfalso
    have hnone := List.findSome?_eq_none_iff.mp hfd l0 hl0
    rw [hld] at hnone
    simp at hnone
  | some p =>
    obtain ⟨n1, v1⟩ := p
    have hfd2 : List.findSome?
        (fun l => (lineDirective l).bind fun p =>
          if SCRConfStringToLowercase p.1 = SCRConfStringToLowercase n0 then some p
          else none) lines = some (n1, v1) := hfd
    obtain ⟨a, hal, hfa⟩ := findSome?_mem_of_eq_some hfd2
    cases hla : lineDirective a with
    | none =>
      rw [hla] at hfa
      simp at hfa
    | some p2 =>
      obtain ⟨n2, v2⟩ := p2
      rw [hla] at hfa
      by_cases hk2 : SCRConfStringToLowercase n2 = SCRConfStringToLowercase n0
      · have hfa2 : some (n2, v2) = some (n1, v1) := by simpa [hk2] using hfa
        have hpp : (n2, v2) = (n1, v1) := by injection hfa2
        have hn12 : n2 = n1 := congrArg Prod.fst hpp
        have hkf : SCRConfStringToLowercase n1 = SCRConfStringToLowercase n0 :=
          hn12 ▸ hk2
        refine ⟨n1, v1, rfl, hkf, ?_⟩
        have hsys : (SCRConfAllocSCRConfReference q none).system =
            SCRConfStringToLowercase n0 := hq
        unfold SCRConfGetReference loadLines
        rw [lookup_foldl]
        have hnil : hashTableLookup [] (SCRConfAllocSCRConfReference q none) =
            none := rfl
        rw [hnil]
        show (firstDirective (SCRConfAllocSCRConfReference q none).system lines).map
            (fun p => SCRConfAllocSCRConfReference p.1 (some p.2)) = _
        rw [hsys, hfd]
        rfl
      · simp [hk2] at hfa

/-! ### Claim theorems -/

/-- C1 (counterexample): a source consisting solely of well-formed lines in
which `cve` is named twice with different urls.  The second line is
well-formed with VALUE `http://u2`, yet looking `cve` up after the load
returns the first line's url, so the claim's "returns a stored entry whose
url field equals VALUE" fails for that line. -/
theorem c1_counterexample :
    (∀ l ∈ fgetsSplit dupSrc, (matchDirective l).isSome = true) ∧
    "config reference: cve http://u2\n".data ∈ fgetsSplit dupSrc ∧
    matchDirective "config reference: cve http://u2\n".data =
      some ("cve".data, "http://u2".data) ∧
    SCRConfGetReference "cve".data (SCRConfParseFile dupSrc) =
      some ⟨"cve".data, some "http://u1".data⟩ ∧
    "http://u1".data ≠ "http://u2".data :=
  ⟨by decide, by decide, by decide, by decide, by decide⟩

/-- C1 (amended): loading any source and looking NAME up under any ASCII
casing returns the stored entry built from the first well-formed line whose
name lowercases like NAME — in particular, when NAME occurs on a single
well-formed line, its VALUE — provided some line matches with name NAME. -/
theorem c1_load_then_lookup (lines : List (List Char)) (q l0 n0 v0 : List Char)
    (hl0 : l0 ∈ lines) (hm : matchDirective l0 = some (n0, v0))
    (hq : SCRConfStringToLowercase q = SCRConfStringToLowercase n0) :
    ∃ n1 v1, firstDirective (SCRConfStringToLowercase n0) lines = some (n1, v1) ∧
      SCRConfStringToLowercase n1 = SCRConfStringToLowercase n0 ∧
      SCRConfGetReference q (loadLines lines) =
        some ⟨SCRConfStringToLowercase n1, some v1⟩ :=
  getReference_eq_first lines q l0 n0 v0 hl0 hm hq

/-- C1 (witness): the amended theorem applied to a concrete one-line source,
queried with a differently-cased name. -/
theorem c1_witness :
    "config reference: one http://u1\n".data ∈ caseLines ∧
    matchDirective "config reference: one http://u1\n".data =
      some ("one".data, "http://u1".data) ∧
    SCRConfStringToLowercase "OnE".data = SCRConfStringToLowercase "one".data ∧
    (∃ n1 v1, firstDirective (SCRConfStringToLowercase "one".data) caseLines =
        some (n1, v1) ∧
      SCRConfStringToLowercase n1 = SCRConfStringToLowercase "one".data ∧
      SCRConfGetReference "OnE".data (loadLines caseLines) =
        some ⟨SCRConfStringToLowercase n1, some v1⟩) :=
  ⟨by decide, by decide, by decide,
    c1_load_then_lookup caseLines "OnE".data "config reference: one http://u1\n".data
      "one".data "http://u1".data (by decide) (by decide) (by decide)⟩

/-- C2: when a name reaches the table from two well-formed lines (same or
different casing), the loaded store holds exactly one entry for that
lowercased name, and looking the name up returns the url of the first
contributing line; moreover the five-line Scenario A source (three distinct
names, two exact duplicates) loads exactly 3 entries. -/
theorem c2_dedup_first_wins (lines : List (List Char)) (i j : Nat)
    (hij : i < j) (hj : j < lines.length) (n1 v1 n2 v2 : List Char)
    (h1 : matchDirective (lines.get ⟨i, Nat.lt_trans hij hj⟩) = some (n1, v1))
    (h2 : matchDirective (lines.get ⟨j, hj⟩) = some (n2, v2))
    (hcase : SCRConfStringToLowercase n2 = SCRConfStringToLowercase n1) :
    ((loadLines lines).filter
        (fun e => e.system == SCRConfStringToLowercase n1)).length = 1 ∧
    (∃ nf vf, firstDirective (SCRConfStringToLowercase n1) lines = some (nf, vf) ∧
      SCRConfGetReference n1 (loadLines lines) =
        some ⟨SCRConfStringToLowercase nf, some vf⟩) ∧
    (SCRConfParseFile fd01Src).length = 3 := by
  have hl0 : lines.get ⟨i, Nat.lt_trans hij hj⟩ ∈ lines :=
    lines.get_mem i (Nat.lt_trans hij hj)
  obtain ⟨nf, vf, hfd, hkf, hlook⟩ :=
    getReference_eq_first lines n1 _ n1 v1 hl0 h1 rfl
  refine ⟨?_, ⟨nf, vf, hfd, hlook⟩, by decide⟩
  have hpw : (loadLines lines).Pairwise (fun a b => a.system ≠ b.system) :=
    pairwise_foldl lines [] List.Pairwise.nil
  have hmem : (⟨SCRConfStringToLowercase nf, some vf⟩ : SCRConfReference) ∈
      loadLines lines := List.mem_of_find?_eq_some hlook
  have hsys : (⟨SCRConfStringToLowercase nf, some vf⟩ : SCRConfReference).system =
      SCRConfStringToLowercase n1 := hkf
  rw [filter_key_singleton hpw hmem hsys]
  rfl

/-- C2 (witness): the theorem applied to the two-line mixed-case source. -/
theorem c2_witness :
    (0 : Nat) < 1 ∧ 1 < caseLines.length ∧
    ((loadLines caseLines).filter
        (fun e => e.system == SCRConfStringToLowercase "one".data)).length = 1 ∧
    (∃ nf vf, firstDirective (SCRConfStringToLowercase "one".data) caseLines =
        some (nf, vf) ∧
      SCRConfGetReference "one".data (loadLines caseLines) =
        some ⟨SCRConfStringToLowercase nf, some vf⟩) ∧
    (SCRConfParseFile fd01Src).length = 3 := by
  have h := c2_dedup_first_wins caseLines 0 1 (by decide) (by decide)
    "one".data "http://u1".data "ONE".data "http://u2".data
    (by decide) (by decide) (by decide)
  exact ⟨by decide, by decide, h.1, h.2.1, h.2.2⟩

/-- C3: a line the grammar rejects leaves the table untouched and the fold
over the remaining lines unaffected; and the Scenario B source (one valid
line, then lines with a missing colon, a missing value and a wrong keyword)
loads exactly the one valid entry, the only retrievable one. -/
theorem c3_malformed_lines_skipped (ht : List SCRConfReference) (l : List Char)
    (rest : List (List Char)) (hbad : matchDirective l = none) :
    List.foldl processLine ht (l :: rest) = List.foldl processLine ht rest ∧
    (processLine ht l).length = ht.length ∧
    (SCRConfParseFile scenBSrc).length = 1 ∧
    SCRConfGetReference "one".data (SCRConfParseFile scenBSrc) =
      some ⟨"one".data, some "http://www.one.com".data⟩ ∧
    SCRConfGetReference "two".data (SCRConfParseFile scenBSrc) = none ∧
    SCRConfGetReference "four".data (SCRConfParseFile scenBSrc) = none ∧
    SCRConfGetReference "five".data (SCRConfParseFile scenBSrc) = none := by
  refine ⟨?_, ?_, by decide, by decide, by decide, by decide, by decide⟩
  · rw [List.foldl_cons, processLine_of_none hbad]
  · rw [processLine_of_none hbad]

/-- C3 (witness): the theorem applied to the missing-value line. -/
theorem c3_witness :
    matchDirective "config reference: four\n".data = none ∧
    List.foldl processLine [] ("config reference: four\n".data ::
      ["config reference: one http://www.one.com\n".data]) =
      List.foldl processLine [] ["config reference: one http://www.one.com\n".data] ∧
    (SCRConfParseFile scenBSrc).length = 1 := by
  have h := c3_malformed_lines_skipped [] "config reference: four\n".data
    ["config reference: one http://www.one.com\n".data] (by decide)
  exact ⟨by decide, h.1, h.2.2.1⟩

/-- C4: when the matcher succeeds the name capture is nonempty and starts with
an ASCII letter and the value capture is nonempty (so a line with an empty or
non-letter-initial name token, or an empty value token, never matches); the
missing-colon and missing-value example lines are rejected. -/
theorem c4_matcher_token_requirements (l n v : List Char)
    (h : matchDirective l = some (n, v)) :
    (n ≠ [] ∧ isAlphaAscii (n.headD ' ') = true ∧ v ≠ []) ∧
    matchDirective "config reference one http://x".data = none ∧
    matchDirective "config reference: four".data = none := by
  obtain ⟨-, ⟨a, cs, rfl, ha, -⟩, hv, -⟩ := matchDirective_shape h
  exact ⟨⟨List.cons_ne_nil a cs, by simpa using ha, hv⟩, by decide, by decide⟩

/-- C4 (witness): the theorem applied to a concrete well-formed line. -/
theorem c4_witness :
    matchDirective "config reference: cve http://x\n".data =
      some ("cve".data, "http://x".data) ∧
    (("cve".data ≠ ([] : List Char)) ∧
      isAlphaAscii (("cve".data).headD ' ') = true ∧
      "http://x".data ≠ ([] : List Char)) ∧
    matchDirective "config reference one http://x".data = none ∧
    matchDirective "config reference: four".data = none := by
  have h := c4_matcher_token_requirements "config reference: cve http://x\n".data
    "cve".data "http://x".data (by decide)
  exact ⟨by decide, h.1, h.2.1, h.2.2⟩

/-- C5: the classifier accepts a line exactly when every character is
whitespace or the first non-whitespace character is `#`; otherwise, i.e. as
soon as the leading whitespace run ends in a non-`#` character, it rejects. -/
theorem c5_classifier_blank_or_comment (line : List Char) :
    SCRConfIsLineBlankOrComment line = true ↔
      ((∀ c ∈ line, isWS c = true) ∨
        (line.dropWhile (fun c => isWS c)).head? = some '#') := by
  induction line with
  | nil => simp [SCRConfIsLineBlankOrComment]
  | cons c rest ih =>
    by_cases hh : c = '#'
    · subst hh
      have hl : SCRConfIsLineBlankOrComment ('#' :: rest) = true := rfl
      have hd : (List.dropWhile (fun c => isWS c) ('#' :: rest)).head? =
          some '#' := rfl
      exact ⟨fun _ => Or.inr hd, fun _ => hl⟩
    · cases hwc : isWS c with
      | true =>
        have hstep : SCRConfIsLineBlankOrComment (c :: rest) =
            SCRConfIsLineBlankOrComment rest := by
          rw [blankOrComment_cons]
          simp [beq_iff_eq, hh, hwc]
        have hdrop : List.dropWhile (fun c => isWS c) (c :: rest) =
            List.dropWhile (fun c => isWS c) rest := by
          rw [List.dropWhile_cons, if_pos hwc]
        rw [hstep, hdrop, ih]
        constructor
        · rintro (hall | hhd)
          · refine Or.inl ?_
            intro x hx
            rcases List.mem_cons.mp hx with rfl | hx
            · exact hwc
            · exact hall x hx
          · exact Or.inr hhd
        · rintro (hall | hhd)
          · exact Or.inl fun x hx => hall x (List.mem_cons_of_mem c hx)
          · exact Or.inr hhd
      | false =>
        have hl : SCRConfIsLineBlankOrComment (c :: rest) = false := by
          rw [blankOrComment_cons]
          simp [beq_iff_eq, hh, hwc]
        rw [hl]
        constructor
        · intro hfalse
          exact absurd hfalse (by simp)
        · rintro (hall | hhd)
          · exact absurd (hall c (List.mem_cons_self c rest)) (by simp [hwc])
          · rw [List.dropWhile_cons, if_neg (by simp [hwc])] at hhd
            simp only [List.head?_cons, Option.some.injEq] at hhd
            exact absurd hhd hh

/-- C6 (counterexample): `CVE` and `cve` are case-insensitively equal keys,
yet the comparator, which `memcmp`s the raw bytes, reports them unequal. -/
theorem c6_counterexample :
    SCRConfStringToLowercase "CVE".data = SCRConfStringToLowercase "cve".data ∧
    SCRConfReferenceHashCompareFunc ⟨"CVE".data, none⟩ ⟨"cve".data, none⟩ =
      false :=
  ⟨by decide, by decide⟩

/-- C6 (amended): the comparator reports two entries equal exactly when their
keys are byte-for-byte equal; case-insensitive behaviour of the store comes
from lowercasing keys at entry construction (insert and lookup), not from the
comparator. -/
theorem c6_comparator_exact_equality (r1 r2 : SCRConfReference) :
    SCRConfReferenceHashCompareFunc r1 r2 = true ↔ r1.system = r2.system :=
  compare_eq_true_iff r1 r2

/-- C7 (counterexample): a well-formed line with one space before its newline;
the loaded entry's url keeps that trailing space, and a space is whitespace —
so the stored value can end in whitespace. -/
theorem c7_counterexample :
    SCRConfParseFile trailWSLine = [⟨"cve".data, some "http://x ".data⟩] ∧
    ("http://x ".data).getLast? = some ' ' ∧ isWS ' ' = true :=
  ⟨by decide, by decide, by decide⟩

/-- C7 (amended): the stored value is the matcher's value capture copied
verbatim — internal whitespace preserved — and the capture is nonempty and
newline-free; but whitespace before the line's newline is retained in it
(only the newline itself is excluded), so the stored value may begin or end
with whitespace. -/
theorem c7_value_stored_verbatim (l n v : List Char)
    (h : matchDirective l = some (n, v)) :
    loadLines [l] = [⟨SCRConfStringToLowercase n, some v⟩] ∧
    v ≠ [] ∧ (∀ c ∈ v, c ≠ '\n') := by
  obtain ⟨-, -, hv, hnl⟩ := matchDirective_shape h
  refine ⟨?_, hv, hnl⟩
  unfold loadLines
  rw [List.foldl_cons, List.foldl_nil, processLine_of_some h]
  rfl

/-- C7 (witness): the amended theorem applied to a line whose value has
internal double spacing and a trailing space before the newline. -/
theorem c7_witness :
    matchDirective wsValueLine = some ("cve".data, "a  b ".data) ∧
    loadLines [wsValueLine] =
      [⟨SCRConfStringToLowercase "cve".data, some "a  b ".data⟩] ∧
    "a  b ".data ≠ ([] : List Char) ∧ (∀ c ∈ "a  b ".data, c ≠ '\n') := by
  have h := c7_value_stored_verbatim wsValueLine "cve".data "a  b ".data (by decide)
  exact ⟨by decide, h.1, h.2.1, h.2.2⟩

/-- C8: whenever `SCRConfLoadReferenceConfigFile` returns (every
initialization failure calls `exit` instead, modelled as `none`), the value
returned is 0 — never the documented -1. -/
theorem c8_load_returns_zero (initOk : Bool) (source : List Char)
    (r : Int × List SCRConfReference)
    (h : SCRConfLoadReferenceConfigFile initOk source = some r) :
    r.1 = 0 ∧ r.1 ≠ -1 := by
  unfold SCRConfLoadReferenceConfigFile at h
  by_cases hi : initOk = true
  · rw [if_pos hi] at h
    have h2 : ((0 : Int), SCRConfParseFile source) = r := by injection h
    rw [← h2]
    refine ⟨rfl, ?_⟩
    intro hc
    have hc2 : (0 : Int) = -1 := hc
    exact absurd hc2 (by decide)
  · rw [if_neg hi] at h
    exact absurd h (by simp)

/-- C8 (witness): the theorem applied to a successful load of Scenario A. -/
theorem c8_witness :
    SCRConfLoadReferenceConfigFile true fd01Src =
      some (0, SCRConfParseFile fd01Src) ∧
    ((0 : Int), SCRConfParseFile fd01Src).1 = 0 ∧
    ((0 : Int), SCRConfParseFile fd01Src).1 ≠ -1 := by
  have h := c8_load_returns_zero true fd01Src (0, SCRConfParseFile fd01Src) rfl
  exact ⟨rfl, h.1, h.2⟩

/-- C9: the loader reads through a 1024-byte `fgets` buffer, so a source whose
first 1023 characters hold no newline is handed to the classifier/matcher as
a 1023-character chunk followed by further chunks — at least two in all, each
of at most 1023 characters — never as one line. -/
theorem c9_fgets_chunks_long_lines (s : List Char) (h1 : 1024 ≤ s.length)
    (h2 : '\n' ∉ s.take 1023) :
    SCRConfParseFile s = loadLines (s.take 1023 :: fgetsSplit (s.drop 1023)) ∧
    2 ≤ (fgetsSplit s).length ∧
    (∀ chunk ∈ fgetsSplit s, chunk.length ≤ 1023) ∧
    (s.take 1023).length < s.length := by
  have h2' : ∀ c ∈ s.take 1023, c ≠ '\n' := fun c hc he => h2 (he ▸ hc)
  have hdec := fgetsSplit_long_decomp h1 h2'
  refine ⟨?_, ?_, ?_, ?_⟩
  · unfold SCRConfParseFile
    rw [hdec]
  · rw [hdec]
    have hne : fgetsSplit (s.drop 1023) ≠ [] := by
      apply fgetsSplit_ne_nil
      intro hdrop
      have hlen := congrArg List.length hdrop
      rw [List.length_drop] at hlen
      simp only [List.length_nil] at hlen
      omega
    have hpos : 0 < (fgetsSplit (s.drop 1023)).length := List.length_pos.mpr hne
    simp only [List.length_cons]
    omega
  · intro chunk hc
    exact fgetsChunks_chunk_le _ _ chunk hc
  · rw [List.length_take]
    omega

/-- C9 (witness): the theorem applied to a 1030-character single-directive
source. -/
theorem c9_witness :
    1024 ≤ longLineSrc.length ∧ ('\n' ∉ longLineSrc.take 1023) ∧
    2 ≤ (fgetsSplit longLineSrc).length ∧
    (∀ chunk ∈ fgetsSplit longLineSrc, chunk.length ≤ 1023) := by
  have h := c9_fgets_chunks_long_lines longLineSrc (by decide) (by decide)
  exact ⟨by decide, by decide, h.2.1, h.2.2.1⟩

/-- C10: `SCRConfGetReference` leaves the table exactly as it found it — same
entries, same count — and its result is the pure lookup. -/
theorem c10_get_reference_preserves_store (rconf_name : List Char)
    (ht : List SCRConfReference) :
    (SCRConfGetReferenceEff rconf_name ht).2 = ht ∧
    (SCRConfGetReferenceEff rconf_name ht).2.length = ht.length ∧
    (SCRConfGetReferenceEff rconf_name ht).1 = SCRConfGetReference rconf_name ht :=
  ⟨rfl, rfl, rfl⟩

end SCRConf
